import Mathlib

/-!
Verification development for the DocuMind frontend (React/JS).

The JavaScript sources are shallowly embedded here.  JS strings are modelled
as `List Char` (one element per code unit), JS objects as structures, and the
browser environment (storage estimate, IndexedDB availability, extracted PDF
pages, clock) as explicit parameters.  Fallible operations return `Except`.
Loops that advance by a computed step are written with an explicit fuel
argument so that every definition is executable by the kernel; the fuel is
always chosen large enough and fuel-irrelevance is proved where needed.
-/

namespace Documind

/-- Whitespace test used by the embeddings of JS `trim()` and `\s`:
space, tab, newline, carriage return. -/
def isWs (c : Char) : Bool :=
  c == ' ' || c == '\t' || c == '\n' || c == '\r'

/-- Embedding of JS `String.prototype.trim`: drop leading and trailing
whitespace. -/
def trimChars (l : List Char) : List Char :=
  ((l.dropWhile isWs).reverse.dropWhile isWs).reverse

/-- `text.replace(/\n/g, ' ')` : newlines to spaces. -/
def newlinesToSpaces (l : List Char) : List Char :=
  l.map (fun c => if c == '\n' then ' ' else c)

/-- `text.replace(/\s+/g, ' ')` : collapse every whitespace run to a single
space.  The boolean records whether the previous character was whitespace. -/
def collapseWsAux : Bool → List Char → List Char
  | _, [] => []
  | prevWs, c :: cs =>
    if isWs c then
      if prevWs then collapseWsAux true cs else ' ' :: collapseWsAux true cs
    else c :: collapseWsAux false cs

/-- Page-text normalization from `handleFile` (UploadIndex.jsx line 148):
`(p.text || '').replace(/\n/g, ' ').replace(/\s+/g, ' ').trim()`. -/
def normalizeText (raw : List Char) : List Char :=
  trimChars (collapseWsAux false (newlinesToSpaces raw))

/-- Substring containment, the embedding of JS `String.prototype.includes`:
`containsSub hay needle` is true iff `needle` occurs contiguously in `hay`. -/
def containsSub : List Char → List Char → Bool
  | [], needle => needle.isEmpty
  | c :: cs, needle => needle.isPrefixOf (c :: cs) || containsSub cs needle

/-- JS `\w` character class: `[A-Za-z0-9_]`. -/
def isWordChar (c : Char) : Bool :=
  c.isAlphanum || c == '_'

/-! ## Chunker (UploadIndex.jsx, handleFile lines 144-157) -/

/-- `const chunkSize = 1500`. -/
def chunkSize : Nat := 1500

/-- `const overlap = 300`. -/
def overlap : Nat := 300

/-- The sequence of candidate windows `(s, e)` visited by the chunking loop:
`s` starts at 0, `e = min (s + chunkSize) len`, the loop stops when `e`
reaches the end and otherwise advances `s` to `e - overlap`.  The fuel only
bounds recursion depth; `len + 1` is always enough. -/
def windowsF : Nat → Nat → Nat → List (Nat × Nat)
  | 0, _, _ => []
  | fuel + 1, len, s =>
    if s < len then
      let e := min (s + chunkSize) len
      (s, e) :: (if e = len then [] else windowsF fuel len (e - overlap))
    else []

/-- The candidate text of a window: `txt.slice(s, e).trim()`. -/
def sliceTrim (txt : List Char) (w : Nat × Nat) : List Char :=
  trimChars ((txt.drop w.1).take (w.2 - w.1))

/-- All candidate chunk texts (trimmed windows), kept or not. -/
def candidatesF (fuel : Nat) (txt : List Char) (s : Nat) : List (List Char) :=
  (windowsF fuel txt.length s).map (sliceTrim txt)

/-- The chunking loop of `handleFile`: emit `txt.slice(s, e).trim()` and keep
it only when its length exceeds 50; stop when the window reaches the end of
the text, else advance by `chunkSize - overlap`. -/
def chunkLoopF : Nat → List Char → Nat → List (List Char)
  | 0, _, _ => []
  | fuel + 1, txt, s =>
    if s < txt.length then
      let e := min (s + chunkSize) txt.length
      let chunk := trimChars ((txt.drop s).take (e - s))
      let rest := if e = txt.length then [] else chunkLoopF fuel txt (e - overlap)
      if 50 < chunk.length then chunk :: rest else rest
    else []

/-- Chunk texts produced from one already-normalized page text. -/
def chunkPageText (txt : List Char) : List (List Char) :=
  chunkLoopF (txt.length + 1) txt 0

/-- Chunk texts produced from one raw page text (normalization included). -/
def chunkPage (raw : List Char) : List (List Char) :=
  chunkPageText (normalizeText raw)

/-- A persisted chunk: `{ page: p.page, text: chunk }`. -/
structure Chunk where
  page : Nat
  text : List Char
deriving DecidableEq, Inhabited

/-- `pages.forEach(...)`: chunk every page independently, in page order. -/
def chunksOfPages (pages : List (Nat × List Char)) : List Chunk :=
  (pages.map (fun p => (chunkPage p.2).map (fun t => Chunk.mk p.1 t))).flatten

/-! ## Store (UploadIndex.jsx, IndexedDB helpers and trySaveLocally) -/

/-- The persisted Collection record (the `payload` built in `handleFile`). -/
structure Collection where
  source : List Char
  chunks : List Chunk
  totalPages : Nat
  processedAt : List Char
deriving DecidableEq, Inhabited

/-- The `collections` object store of the `documind-db` IndexedDB database,
as a key-value association list; the most recent write for a key shadows
older entries. -/
def IdbStore := List (List Char × Collection)
deriving instance DecidableEq, Inhabited for IdbStore

/-- `store.put(value, key)`: write `v` under `k`, replacing any prior value. -/
def idbPut (st : IdbStore) (k : List Char) (v : Collection) : IdbStore :=
  (k, v) :: st

/-- Reading a key back from the object store (`store.get(key)` semantics). -/
def storeGet (st : IdbStore) (k : List Char) : Option Collection :=
  ((st : List (List Char × Collection)).find? (fun p => p.1 == k)).map (fun p => p.2)

/-- Result of `navigator.storage.estimate()`; `quota` and `usage` in bytes. -/
structure StorageEstimate where
  quota : Nat
  usage : Nat
deriving DecidableEq

/-- The quota check inside `trySaveLocally` (UploadIndex.jsx lines 65-75):
when the estimate API exists, the quota is truthy and the usage defined,
and `quota - usage < 5 * 1024 * 1024`, it throws. -/
def quotaCheck (est : Option StorageEstimate) : Except (List Char) Unit :=
  match est with
  | none => Except.ok ()
  | some e =>
    if e.quota ≠ 0 then
      if (e.quota : Int) - (e.usage : Int) < 5 * 1024 * 1024 then
        Except.error "Insufficient local storage quota for this document".data
      else Except.ok ()
    else Except.ok ()

/-- Failure of the underlying store (IndexedDB unavailable or write denied). -/
inductive StoreErr
  | storeUnavailable
deriving DecidableEq

deriving instance DecidableEq for Except

/-- What one call of `trySaveLocally` did. -/
structure SaveOutcome where
  /-- whether the catch around the quota check fired `console.warn`. -/
  quotaWarned : Bool
  /-- whether control reached `await idbPut(...)`. -/
  writeAttempted : Bool
  /-- the updated store, or the error the `idbPut` promise rejected with. -/
  result : Except StoreErr IdbStore
deriving DecidableEq

/-- Embedding of `trySaveLocally` (UploadIndex.jsx lines 62-84).  The quota
check runs inside its own try/catch whose catch only warns and continues, so
control always reaches the IndexedDB write; `idbOk` abstracts whether the
underlying IndexedDB write succeeds. -/
def trySaveLocally (est : Option StorageEstimate) (idbOk : Bool)
    (key : List Char) (payload : Collection) (st : IdbStore) : SaveOutcome :=
  let warned :=
    match quotaCheck est with
    | Except.error _ => true
    | Except.ok _ => false
  { quotaWarned := warned
    writeAttempted := true
    result := if idbOk then Except.ok (idbPut st key payload) else Except.error StoreErr.storeUnavailable }

/-- The browser's two independent storage areas: the IndexedDB object store
written by `UploadIndex`, and `window.localStorage` read by
`demoLocalAnswer` in Chat.jsx. -/
structure Browser where
  idb : IdbStore
  localStore : List (List Char × List Char)
deriving DecidableEq

/-- `localStorage.getItem(k)`. -/
def localStorageGetItem (b : Browser) (k : List Char) : Option (List Char) :=
  (b.localStore.find? (fun p => p.1 == k)).map (fun p => p.2)

/-! ## Ingestion pipeline (UploadIndex.jsx, handleFile) -/

/-- `file.name.replace(/[^a-zA-Z0-9._-]/g, '_')`, applied per character. -/
def sanitizeChar (c : Char) : Char :=
  if c.isAlphanum || c == '.' || c == '_' || c == '-' then c else '_'

/-- Sanitized file name used to build the collection name. -/
def sanitizeName (name : List Char) : List Char :=
  name.map sanitizeChar

/-- `sanitize(file.name) + '_' + Date.now()` with the clock as a parameter. -/
def collectionNameOf (fileName : List Char) (now : Nat) : List Char :=
  sanitizeName fileName ++ "_".data ++ (Nat.repr now).data

/-- The status message `Indexed N chunks from M pages (...)`. -/
def indexedMsg (nChunks nPages : Nat) (tail : List Char) : List Char :=
  "Indexed ".data ++ (Nat.repr nChunks).data ++ " chunks from ".data ++
    (Nat.repr nPages).data ++ " pages ".data ++ tail

/-- Observable outcome of the tail of `handleFile` after chunking. -/
structure IngestResult where
  browser : Browser
  status : List Char
  /-- the argument passed to `onIndexed`, when reached. -/
  notified : Option (List Char)
  /-- whether the best-effort `axios.post('/api/index', ...)` was issued. -/
  remoteIndexAttempted : Bool
deriving DecidableEq

/-- Embedding of `handleFile` lines 170-193: try to save locally under
`'documind:' + collectionName`; a failure is caught and only changes the
status message; then `onIndexed(collectionName)` runs and the remote index
submission is attempted regardless. -/
def ingestTail (est : Option StorageEstimate) (idbOk : Bool)
    (collectionName : List Char) (payload : Collection)
    (nChunks nPages : Nat) (b : Browser) : IngestResult :=
  let save := trySaveLocally est idbOk ("documind:".data ++ collectionName) payload b.idb
  match save.result with
  | Except.ok st =>
    { browser := { b with idb := st }
      status := indexedMsg nChunks nPages "(saved locally).".data
      notified := some collectionName
      remoteIndexAttempted := true }
  | Except.error _ =>
    { browser := b
      status := indexedMsg nChunks nPages "(local save skipped).".data
      notified := some collectionName
      remoteIndexAttempted := true }

/-- Observable outcome of a whole `handleFile` invocation. -/
structure RunResult where
  browser : Browser
  status : List Char
  notified : Option (List Char)
  /-- whether the PDF.js loading/extraction phase was entered. -/
  parserRequested : Bool
  remoteIndexAttempted : Bool
deriving DecidableEq

/-- `file.name.toLowerCase().endsWith('.pdf')`. -/
def pdfNameOk (name : List Char) : Bool :=
  ".pdf".data.isSuffixOf (name.map Char.toLower)

/-- Embedding of `handleFile` (UploadIndex.jsx lines 86-205).  The selection
is `none` when no file is present.  Extraction is external: the extracted
pages (number, raw text) are a parameter, as are the storage estimate, the
IndexedDB availability and the clock. -/
def handleFile (file : Option (List Char)) (pages : List (Nat × List Char))
    (est : Option StorageEstimate) (idbOk : Bool) (now : Nat)
    (processedAt : List Char) (b : Browser) : RunResult :=
  match file with
  | none =>
    { browser := b, status := "Please select a PDF file".data
      notified := none, parserRequested := false, remoteIndexAttempted := false }
  | some name =>
    if pdfNameOk name then
      let chunks := chunksOfPages pages
      let collectionName := collectionNameOf name now
      let payload : Collection :=
        { source := name, chunks := chunks, totalPages := pages.length, processedAt := processedAt }
      let t := ingestTail est idbOk collectionName payload chunks.length pages.length b
      { browser := t.browser, status := t.status, notified := t.notified
        parserRequested := true, remoteIndexAttempted := t.remoteIndexAttempted }
    else
      { browser := b, status := "Please select a PDF file".data
        notified := none, parserRequested := false, remoteIndexAttempted := false }

/-! ## Local retrieval (Chat.jsx, demoLocalAnswer lines 284-300) -/

/-- Query tokenization: `(q || '').toLowerCase().split(/\W+/).filter(Boolean)`. -/
def qTokens (q : List Char) : List (List Char) :=
  ((q.map Char.toLower).splitOnP (fun c => !isWordChar c)).filter (fun w => !w.isEmpty)

/-- Chunk score:
`qwords.reduce((s, w) => s + (c.text.toLowerCase().includes(w) ? 1 : 0), 0)`. -/
def chunkScore (qws : List (List Char)) (text : List Char) : Nat :=
  qws.foldl (fun s w => s + (if containsSub (text.map Char.toLower) w then 1 else 0)) 0

/-- `parsed.chunks.map((c, i) => ({i, score: ...}))`, as (index, score) pairs. -/
def scoreList (qws : List (List Char)) : Nat → List Chunk → List (Nat × Nat)
  | _, [] => []
  | i, c :: cs => (i, chunkScore qws c.text) :: scoreList qws (i + 1) cs

/-- The order produced by the stable JS sort `(a, b) => b.score - a.score`:
`a` may precede `b` iff `a`'s score is at least `b`'s. -/
def rankR (a b : Nat × Nat) : Prop := b.2 ≤ a.2

instance : DecidableRel rankR := fun a b => inferInstanceAs (Decidable (b.2 ≤ a.2))

instance : IsTotal (Nat × Nat) rankR := ⟨fun a b => Nat.le_total b.2 a.2⟩

instance : IsTrans (Nat × Nat) rankR := ⟨fun _ _ _ h h2 => Nat.le_trans h2 h⟩

/-- `scores.sort((a,b) => b.score - a.score).slice(0, 3).filter(x => x.score > 0)`.
JS `Array.prototype.sort` is stable, hence the insertion sort by `rankR`. -/
def demoRetrieveScored (chunks : List Chunk) (q : List Char) : List (Nat × Nat) :=
  (((List.insertionSort rankR (scoreList (qTokens q) 0 chunks))).take 3).filter
    (fun x => 0 < x.2)

/-- The chunk indices selected by `demoLocalAnswer` for display, in order. -/
def demoRetrieve (chunks : List Chunk) (q : List Char) : List Nat :=
  (demoRetrieveScored chunks q).map (fun x => x.1)

/-! ## Math placeholder substitution (Chat.jsx, ask, lines 87-95) -/

/-- Embedding of `md.split(sep).join(repl)`: replace every occurrence of
`sep` in the text, scanning left to right without overlap.  Each step
consumes at least one character, so fuel `text.length` is always enough;
exhausted fuel returns the remaining text unchanged. -/
def replaceAllF (sep repl : List Char) : Nat → List Char → List Char
  | 0, text => text
  | _ + 1, [] => []
  | fuel + 1, c :: cs =>
    if sep.isPrefixOf (c :: cs) && !sep.isEmpty then
      repl ++ replaceAllF sep repl fuel ((c :: cs).drop sep.length)
    else c :: replaceAllF sep repl fuel cs

/-- `md.split(sep).join(repl)` with sufficient fuel. -/
def replaceAll (sep repl text : List Char) : List Char :=
  replaceAllF sep repl text.length text

/-- The placeholder token `<<MATH_i>>`. -/
def placeholderTok (i : Nat) : List Char :=
  "<<MATH_".data ++ (Nat.repr i).data ++ ">>".data

/-- The delimiter wrapping of one math expression:
display `\[...\]` when it exceeds 80 characters or contains a newline,
inline `\(...\)` otherwise. -/
def wrapExpr (m : List Char) : List Char :=
  if 80 < m.length || m.contains '\n' then
    "\\[".data ++ m ++ "\\]".data
  else
    "\\(".data ++ m ++ "\\)".data

/-- `mathList.forEach((m, i) => { md = md.split(placeholder).join(wrapped) })`:
each iteration rewrites the markdown produced by the previous one. -/
def substMathAux : List Char → Nat → List (List Char) → List Char
  | md, _, [] => md
  | md, i, m :: ms =>
    substMathAux (replaceAll (placeholderTok i) (wrapExpr m) md) (i + 1) ms

/-- The whole placeholder-substitution loop of `ask`, starting at index 0. -/
def substMath (md : List Char) (maths : List (List Char)) : List Char :=
  substMathAux md 0 maths

/-! ## Delimiter-to-markup rewriting (unnamed Chat component,
processMathExpressions lines 54-68 and processCodeBlocks lines 70-77) -/

/-- Find the earliest occurrence of `closeD`; return the content before it
and the rest after it.  This is the lazy `(.*?)` search of the regexes. -/
def findCloseSplit (closeD : List Char) : List Char → Option (List Char × List Char)
  | [] => none
  | c :: cs =>
    if closeD.isPrefixOf (c :: cs) then some ([], (c :: cs).drop closeD.length)
    else
      match findCloseSplit closeD cs with
      | some r => some (c :: r.1, r.2)
      | none => none

/-- One global lazy-pair rewrite `text.replace(/OPEN(.*?)CLOSE/gs, L$1R)`:
at an occurrence of `openD`, the nearest following `closeD` closes the
match; with no close the scanner advances one character.  Fuel as above. -/
def replaceEncF (openD closeD wrapL wrapR : List Char) : Nat → List Char → List Char
  | 0, t => t
  | _ + 1, [] => []
  | fuel + 1, c :: cs =>
    if openD.isPrefixOf (c :: cs) then
      match findCloseSplit closeD ((c :: cs).drop openD.length) with
      | some r => wrapL ++ r.1 ++ wrapR ++ replaceEncF openD closeD wrapL wrapR fuel r.2
      | none => c :: replaceEncF openD closeD wrapL wrapR fuel cs
    else c :: replaceEncF openD closeD wrapL wrapR fuel cs

/-- Opening markup of the display-math container. -/
def mathDisplayL : List Char := "<div class=\"math-display\">\\[".data

/-- Closing markup of the display-math container. -/
def mathDisplayR : List Char := "\\]</div>".data

/-- Opening markup of the inline-math span. -/
def mathInlineL : List Char := "<span class=\"math-inline\">\\(".data

/-- Closing markup of the inline-math span. -/
def mathInlineR : List Char := "\\)</span>".data

/-- `text.replace(/\\\[(.*?)\\\]/gs, '<div class="math-display">\[$1\]</div>')`. -/
def bracketPass (t : List Char) : List Char :=
  replaceEncF "\\[".data "\\]".data mathDisplayL mathDisplayR t.length t

/-- `text.replace(/\$\$(.*?)\$\$/gs, '<div class="math-display">\[$1\]</div>')`. -/
def dollar2Pass (t : List Char) : List Char :=
  replaceEncF "$$".data "$$".data mathDisplayL mathDisplayR t.length t

/-- `text.replace(/\\\((.*?)\\\)/gs, '<span class="math-inline">\($1\)</span>')`. -/
def parenPass (t : List Char) : List Char :=
  replaceEncF "\\(".data "\\)".data mathInlineL mathInlineR t.length t

/-- The single-dollar inline match attempt after an opening `$`:
the content is the maximal nonempty run of non-`$`, non-newline characters,
the close is the `$` right after it, and the close must not be followed by
another `$`.  Returns the content and the rest after the closing `$`. -/
def dollarFind (l : List Char) : Option (List Char × List Char) :=
  let content := l.takeWhile (fun c => !(c == '$') && !(c == '\n'))
  match l.drop content.length with
  | '$' :: r =>
    if content.isEmpty || r.head? == some '$' then none else some (content, r)
  | _ => none

/-- `text.replace(/(?<!\$)\$([^\$\n]+?)\$(?!\$)/g, '<span ...>\($1\)</span>')`.
The `Option Char` argument is the character preceding the scan position,
for the `(?<!\$)` lookbehind. -/
def dollarPassF : Nat → Option Char → List Char → List Char
  | 0, _, t => t
  | _ + 1, _, [] => []
  | fuel + 1, prev, c :: cs =>
    if c == '$' && !(prev == some '$') then
      match dollarFind cs with
      | some r => mathInlineL ++ r.1 ++ mathInlineR ++ dollarPassF fuel (some '$') r.2
      | none => c :: dollarPassF fuel (some c) cs
    else c :: dollarPassF fuel (some c) cs

/-- The single-dollar pass over a whole text. -/
def dollarPass (t : List Char) : List Char :=
  dollarPassF t.length none t

/-- `processMathExpressions`: display `\[...\]`, then display `$$...$$`,
then inline `\(...\)`, then inline `$...$`. -/
def processMathExpressions (t : List Char) : List Char :=
  dollarPass (parenPass (dollar2Pass (bracketPass t)))

/-- The backtick character. -/
def backtick : Char := Char.ofNat 96

/-- Escaping of one character inside a fenced code block:
`&` then `<` then `>` are rewritten to entities. -/
def escapeHtmlChar (c : Char) : List Char :=
  if c == '&' then "&amp;".data
  else if c == '<' then "&lt;".data
  else if c == '>' then "&gt;".data
  else [c]

/-- `code.replace(/&/g,'&amp;').replace(/</g,'&lt;').replace(/>/g,'&gt;')`. -/
def escapeHtml (l : List Char) : List Char :=
  (l.map escapeHtmlChar).flatten

/-- Opening markup of a fenced code block, `plaintext` when no language. -/
def codeBlockL (lang : List Char) : List Char :=
  "<pre class=\"code-block\"><code class=\"language-".data ++
    (if lang.isEmpty then "plaintext".data else lang) ++ "\">".data

/-- Closing markup of a fenced code block. -/
def codeBlockR : List Char := "</code></pre>".data

/-- The fence delimiter: three backticks. -/
def fence : List Char := [backtick, backtick, backtick]

/-- `text.replace(/```(\w+)?\n([\s\S]*?)```/g, ...)` with the callback that
escapes and trims the body. -/
def fencedPassF : Nat → List Char → List Char
  | 0, t => t
  | _ + 1, [] => []
  | fuel + 1, c :: cs =>
    if fence.isPrefixOf (c :: cs) then
      let t1 := (c :: cs).drop 3
      let lang := t1.takeWhile isWordChar
      match t1.drop lang.length with
      | '\n' :: t3 =>
        match findCloseSplit fence t3 with
        | some r =>
          codeBlockL lang ++ trimChars (escapeHtml r.1) ++ codeBlockR ++ fencedPassF fuel r.2
        | none => c :: fencedPassF fuel cs
      | _ => c :: fencedPassF fuel cs
    else c :: fencedPassF fuel cs

/-- The fenced-code pass over a whole text. -/
def fencedPass (t : List Char) : List Char :=
  fencedPassF t.length t

/-- `text.replace(/`([^`]+)`/g, '<code class="inline-code">$1</code>')`. -/
def inlineCodePassF : Nat → List Char → List Char
  | 0, t => t
  | _ + 1, [] => []
  | fuel + 1, c :: cs =>
    if c == backtick then
      let content := cs.takeWhile (fun ch => !(ch == backtick))
      match cs.drop content.length with
      | b :: r =>
        if b == backtick && !content.isEmpty then
          "<code class=\"inline-code\">".data ++ content ++ "</code>".data ++
            inlineCodePassF fuel r
        else c :: inlineCodePassF fuel cs
      | [] => c :: inlineCodePassF fuel cs
    else c :: inlineCodePassF fuel cs

/-- The inline-code pass over a whole text. -/
def inlineCodePass (t : List Char) : List Char :=
  inlineCodePassF t.length t

/-- `processCodeBlocks`: fenced blocks, then inline code spans. -/
def processCodeBlocks (t : List Char) : List Char :=
  inlineCodePass (fencedPass t)

/-- The rewriting applied by `ask` to the substituted markdown:
`md = processMathExpressions(md); md = processCodeBlocks(md)`. -/
def askRewrite (t : List Char) : List Char :=
  processCodeBlocks (processMathExpressions t)

/-! ## Lemmas about the chunker -/

theorem trimChars_length_le (l : List Char) : (trimChars l).length ≤ l.length := by
  unfold trimChars
  have h1 := (List.dropWhile_sublist (l := l) isWs).length_le
  have h2 := (List.dropWhile_sublist (l := (l.dropWhile isWs).reverse) isWs).length_le
  simp only [List.length_reverse] at h1 h2 ⊢
  omega

theorem mem_windowsF (fuel len s : Nat) (w : Nat × Nat)
    (hw : w ∈ windowsF fuel len s) : w.2 = min (w.1 + chunkSize) len ∧ w.1 < len := by
  induction fuel generalizing s with
  | zero => simp [windowsF] at hw
  | succ fuel ih =>
    rw [windowsF] at hw
    by_cases h : s < len
    · simp only [h, if_true] at hw
      rcases List.mem_cons.mp hw with h1 | h1
      · subst h1; exact ⟨rfl, h⟩
      · by_cases he : min (s + chunkSize) len = len
        · simp [he] at h1
        · simp only [he, if_neg, ite_false] at h1
          exact ih _ h1
    · simp [h] at hw

theorem windowsF_head (fuel len s : Nat) (w : Nat × Nat)
    (hw : (windowsF fuel len s).head? = some w) : w.1 = s := by
  cases fuel with
  | zero => simp [windowsF] at hw
  | succ fuel =>
    rw [windowsF] at hw
    by_cases h : s < len
    · simp only [h, if_true, List.head?_cons, Option.some_inj] at hw
      rw [← hw]
    · simp [h] at hw

theorem windowsF_chain (fuel len s : Nat) :
    List.Chain' (fun a b => a.2 = a.1 + chunkSize ∧ b.1 + overlap = a.2)
      (windowsF fuel len s) := by
  induction fuel generalizing s with
  | zero => simp [windowsF]
  | succ fuel ih =>
    rw [windowsF]
    by_cases h : s < len
    · simp only [h, if_true]
      by_cases he : min (s + chunkSize) len = len
      · simp [he]
      · simp only [he, ite_false]
        rw [List.chain'_cons']
        refine ⟨fun y hy => ?_, ih _⟩
        have h1 : y.1 = min (s + chunkSize) len - overlap := windowsF_head _ _ _ _ hy
        have h2 : chunkSize = 1500 := rfl
        have h3 : overlap = 300 := rfl
        constructor
        · simp only [h2] at he ⊢
          omega
        · simp only [h2, h3] at he h1 ⊢
          omega
    · simp [h]

theorem chunkLoopF_eq_filter (fuel : Nat) (txt : List Char) (s : Nat) :
    chunkLoopF fuel txt s = (candidatesF fuel txt s).filter (fun c => 50 < c.length) := by
  induction fuel generalizing s with
  | zero => simp [chunkLoopF, candidatesF, windowsF]
  | succ fuel ih =>
    rw [chunkLoopF]
    unfold candidatesF
    rw [windowsF]
    by_cases h : s < txt.length
    · simp only [h, if_true, List.map_cons, List.filter_cons]
      by_cases he : min (s + chunkSize) txt.length = txt.length
      · simp only [he, ite_true, List.map_nil, List.filter_nil, sliceTrim]
        by_cases hl : 50 < (trimChars ((txt.drop s).take (min (s + chunkSize) txt.length - s))).length
        · simp [hl]
        · simp [hl]
      · simp only [he, ite_false, sliceTrim]
        rw [ih]
        unfold candidatesF
        by_cases hl : 50 < (trimChars ((txt.drop s).take (min (s + chunkSize) txt.length - s))).length
        · simp [hl]
        · simp [hl]
    · simp [h, chunkLoopF]

theorem mem_chunkLoopF_gt_50 (fuel : Nat) (txt : List Char) (s : Nat) (c : List Char)
    (hc : c ∈ chunkLoopF fuel txt s) : 50 < c.length := by
  rw [chunkLoopF_eq_filter] at hc
  exact of_decide_eq_true (List.mem_filter.mp hc).2

theorem collapseWsAux_of_nonws (b : Bool) (l : List Char)
    (h : ∀ c ∈ l, isWs c = false) : collapseWsAux b l = l := by
  induction l generalizing b with
  | nil => rfl
  | cons c cs ih =>
    have hc := h c (by simp)
    simp [collapseWsAux, hc, ih false (fun x hx => h x (by simp [hx]))]

theorem collapseWsAux_append_of_nonws (a r : List Char)
    (h : ∀ c ∈ a, isWs c = false) :
    collapseWsAux false (a ++ r) = a ++ collapseWsAux false r := by
  induction a with
  | nil => rfl
  | cons c cs ih =>
    have hc := h c (by simp)
    simp [collapseWsAux, hc, ih (fun x hx => h x (by simp [hx]))]

theorem dropWhile_isWs_eq_self (l : List Char)
    (h : ∀ c, l.head? = some c → isWs c = false) : l.dropWhile isWs = l := by
  cases l with
  | nil => rfl
  | cons c cs => simp [List.dropWhile_cons, h c rfl]

theorem trimChars_eq_self (l : List Char)
    (h1 : ∀ c, l.head? = some c → isWs c = false)
    (h2 : ∀ c, l.getLast? = some c → isWs c = false) : trimChars l = l := by
  unfold trimChars
  rw [dropWhile_isWs_eq_self l h1]
  rw [dropWhile_isWs_eq_self l.reverse
    (fun c hc => h2 c (by rwa [List.head?_reverse] at hc))]
  exact List.reverse_reverse l

theorem newlinesToSpaces_of_no_newline (l : List Char)
    (h : ∀ c ∈ l, (c == '\n') = false) : newlinesToSpaces l = l := by
  unfold newlinesToSpaces
  rw [List.map_congr_left (g := id) (fun c hc => by simp [h c hc])]
  exact List.map_id l

theorem normalizeText_of_nonws (l : List Char) (h : ∀ c ∈ l, isWs c = false) :
    normalizeText l = l := by
  unfold normalizeText
  rw [newlinesToSpaces_of_no_newline l (fun c hc => by
    have h1 := h c hc
    by_contra h2
    simp only [Bool.not_eq_false, beq_iff_eq] at h2
    subst h2
    simp [isWs] at h1)]
  rw [collapseWsAux_of_nonws false l h]
  exact trimChars_eq_self l
    (fun c hc => h c (List.mem_of_mem_head? (hc ▸ rfl)))
    (fun c hc => by
      rcases List.mem_getLast?_eq_getLast (l := l) (x := c) (Option.mem_def.mpr hc) with ⟨hne, hcl⟩
      refine h c ?_
      rw [hcl]
      exact List.getLast_mem hne)

theorem mem_chunkLoopF_le_chunkSize (fuel : Nat) (txt : List Char) (s : Nat) (c : List Char)
    (hc : c ∈ chunkLoopF fuel txt s) : c.length ≤ chunkSize := by
  rw [chunkLoopF_eq_filter] at hc
  have h1 : c ∈ candidatesF fuel txt s := (List.mem_filter.mp hc).1
  unfold candidatesF at h1
  rcases List.mem_map.mp h1 with ⟨w, hw, hww⟩
  have h2 := mem_windowsF fuel txt.length s w hw
  subst hww
  unfold sliceTrim
  calc (trimChars ((txt.drop w.1).take (w.2 - w.1))).length
      ≤ ((txt.drop w.1).take (w.2 - w.1)).length := trimChars_length_le _
    _ ≤ w.2 - w.1 := by rw [List.length_take]; omega
    _ ≤ chunkSize := by omega

theorem chunkLoopF_succ (fuel : Nat) (txt : List Char) (s : Nat) :
    chunkLoopF (fuel + 1) txt s =
      if s < txt.length then
        (let e := min (s + chunkSize) txt.length
         let chunk := trimChars ((txt.drop s).take (e - s))
         let rest := if e = txt.length then [] else chunkLoopF fuel txt (e - overlap)
         if 50 < chunk.length then chunk :: rest else rest)
      else [] := rfl

theorem chunkLoopF_step_mid (fuel : Nat) (txt : List Char) (s : Nat)
    (h : s + chunkSize < txt.length)
    (hchunk : 50 < (trimChars ((txt.drop s).take chunkSize)).length) :
    chunkLoopF (fuel + 1) txt s =
      trimChars ((txt.drop s).take chunkSize) ::
        chunkLoopF fuel txt (s + chunkSize - overlap) := by
  rw [chunkLoopF_succ]
  rw [if_pos (by omega : s < txt.length)]
  have he : min (s + chunkSize) txt.length = s + chunkSize := by omega
  simp only [he]
  rw [if_neg (by omega : ¬ s + chunkSize = txt.length)]
  have h2 : s + chunkSize - s = chunkSize := by omega
  rw [h2]
  rw [if_pos hchunk]

theorem chunkLoopF_step_last (fuel : Nat) (txt : List Char) (s : Nat)
    (h1 : s < txt.length) (h2 : txt.length ≤ s + chunkSize)
    (hchunk : 50 < (trimChars ((txt.drop s).take (txt.length - s))).length) :
    chunkLoopF (fuel + 1) txt s = [trimChars ((txt.drop s).take (txt.length - s))] := by
  rw [chunkLoopF_succ]
  rw [if_pos h1]
  have he : min (s + chunkSize) txt.length = txt.length := by omega
  simp only [he, if_true]
  rw [if_pos hchunk]

theorem chunkLoopF_step_last_drop (fuel : Nat) (txt : List Char) (s : Nat)
    (h1 : s < txt.length) (h2 : txt.length ≤ s + chunkSize)
    (hchunk : ¬ 50 < (trimChars ((txt.drop s).take (txt.length - s))).length) :
    chunkLoopF (fuel + 1) txt s = [] := by
  rw [chunkLoopF_succ]
  rw [if_pos h1]
  have he : min (s + chunkSize) txt.length = txt.length := by omega
  simp only [he, if_true]
  rw [if_neg hchunk]

theorem trimChars_replicate_a (n : Nat) :
    trimChars (List.replicate n 'a') = List.replicate n 'a' := by
  cases n with
  | zero => rfl
  | succ n =>
    refine trimChars_eq_self _ (fun c hc => ?_) (fun c hc => ?_)
    · rw [List.replicate_succ, List.head?_cons, Option.some_inj] at hc
      subst hc; decide
    · rw [List.replicate_succ', List.getLast?_concat, Option.some_inj] at hc
      subst hc; decide

theorem chunkPage_rep2000 :
    chunkPage (List.replicate 2000 'a') =
      [(List.replicate 2000 'a').take 1500, (List.replicate 2000 'a').drop 1200] := by
  have hn : normalizeText (List.replicate 2000 'a') = List.replicate 2000 'a' :=
    normalizeText_of_nonws _ (fun c hc => by
      rw [List.mem_replicate] at hc
      rw [hc.2]; decide)
  unfold chunkPage chunkPageText
  rw [hn]
  set t := List.replicate 2000 'a' with ht
  have hlen : t.length = 2000 := by rw [ht, List.length_replicate]
  have hd0 : (t.drop 0).take chunkSize = List.replicate 1500 'a' := by
    rw [List.drop_zero, ht, List.take_replicate]
    norm_num [chunkSize]
  have hd1 : (t.drop 1200).take (t.length - 1200) = List.replicate 800 'a' := by
    rw [hlen, ht, List.drop_replicate, List.take_replicate]
    norm_num
  rw [hlen]
  rw [chunkLoopF_step_mid 2000 t 0 (by rw [hlen]; norm_num [chunkSize])
    (by rw [hd0, trimChars_replicate_a, List.length_replicate]; norm_num)]
  rw [hd0, trimChars_replicate_a]
  have hs : 0 + chunkSize - overlap = 1200 := by norm_num [chunkSize, overlap]
  rw [hs]
  rw [show (2000 : Nat) = 1999 + 1 by norm_num]
  rw [chunkLoopF_step_last 1999 t 1200 (by rw [hlen]; norm_num)
    (by rw [hlen]; norm_num [chunkSize])
    (by rw [hd1, trimChars_replicate_a, List.length_replicate]; norm_num)]
  rw [hd1, trimChars_replicate_a]
  rw [ht, List.take_replicate, List.drop_replicate]
  norm_num

theorem c5txt_eq_norm :
    normalizeText (List.replicate 1200 'a' ++ ' ' :: List.replicate 799 'a') =
      List.replicate 1200 'a' ++ ' ' :: List.replicate 799 'a' := by
  have hmem : ∀ c ∈ List.replicate 1200 'a' ++ ' ' :: List.replicate 799 'a',
      c = 'a' ∨ c = ' ' := by
    intro c hc
    rcases List.mem_append.mp hc with h | h
    · exact Or.inl (List.mem_replicate.mp h).2
    · rcases List.mem_cons.mp h with h | h
      · exact Or.inr h
      · exact Or.inl (List.mem_replicate.mp h).2
  unfold normalizeText
  rw [newlinesToSpaces_of_no_newline _ (fun c hc => by
    rcases hmem c hc with h | h <;> (subst h; decide))]
  rw [collapseWsAux_append_of_nonws _ _ (fun c hc => by
    rw [(List.mem_replicate.mp hc).2]; decide)]
  have hcoll : collapseWsAux false (' ' :: List.replicate 799 'a') =
      ' ' :: List.replicate 799 'a' := by
    show collapseWsAux false (' ' :: List.replicate 799 'a') = _
    rw [collapseWsAux]
    rw [if_pos (by decide : isWs ' ' = true)]
    rw [if_neg (by decide : ¬ (false = true))]
    rw [collapseWsAux_of_nonws true _ (fun c hc => by
      rw [(List.mem_replicate.mp hc).2]; decide)]
  rw [hcoll]
  refine trimChars_eq_self _ (fun c hc => ?_) (fun c hc => ?_)
  · rw [List.head?_append, List.head?_replicate] at hc
    norm_num at hc
    rw [← hc]; decide
  · rw [List.getLast?_append] at hc
    have h799 : (' ' :: List.replicate 799 'a') = (' ' :: List.replicate 798 'a') ++ ['a'] := by
      rw [show (799 : Nat) = 798 + 1 by norm_num, List.replicate_succ', List.cons_append]
    rw [h799, List.getLast?_concat] at hc
    simp only [Option.or_some, Option.some_inj] at hc
    rw [← hc]; decide

theorem chunkPage_c5txt :
    chunkPage (List.replicate 1200 'a' ++ ' ' :: List.replicate 799 'a') =
      [List.replicate 1200 'a' ++ ' ' :: List.replicate 299 'a',
        List.replicate 799 'a'] := by
  unfold chunkPage chunkPageText
  rw [c5txt_eq_norm]
  set t := List.replicate 1200 'a' ++ ' ' :: List.replicate 799 'a' with ht
  have hlen : t.length = 2000 := by
    rw [ht, List.length_append, List.length_replicate, List.length_cons, List.length_replicate]
  have hd0 : (t.drop 0).take chunkSize =
      List.replicate 1200 'a' ++ ' ' :: List.replicate 299 'a' := by
    rw [List.drop_zero, ht, List.take_append_eq_append_take]
    rw [List.take_replicate, List.length_replicate]
    rw [show chunkSize = 1500 from rfl]
    rw [show min 1500 1200 = 1200 by norm_num]
    rw [show (1500 : Nat) - 1200 = 299 + 1 by norm_num]
    rw [List.take_succ_cons, List.take_replicate]
    rw [show min 299 799 = 299 by norm_num]
  have hc1head : (List.replicate 1200 'a' ++ ' ' :: List.replicate 299 'a').head? = some 'a' := by
    rw [List.head?_append, List.head?_replicate]
    norm_num
  have hc1last : (List.replicate 1200 'a' ++ ' ' :: List.replicate 299 'a').getLast? = some 'a' := by
    rw [List.getLast?_append]
    have h299 : (' ' :: List.replicate 299 'a') = (' ' :: List.replicate 298 'a') ++ ['a'] := by
      rw [show (299 : Nat) = 298 + 1 by norm_num, List.replicate_succ', List.cons_append]
    rw [h299, List.getLast?_concat]
    rfl
  have htrim1 : trimChars (List.replicate 1200 'a' ++ ' ' :: List.replicate 299 'a') =
      List.replicate 1200 'a' ++ ' ' :: List.replicate 299 'a' := by
    refine trimChars_eq_self _ (fun c hc => ?_) (fun c hc => ?_)
    · rw [hc1head, Option.some_inj] at hc
      rw [← hc]; decide
    · rw [hc1last, Option.some_inj] at hc
      rw [← hc]; decide
  have hc1len : (List.replicate 1200 'a' ++ ' ' :: List.replicate 299 'a').length = 1500 := by
    rw [List.length_append, List.length_replicate, List.length_cons, List.length_replicate]
  have hd1 : (t.drop 1200).take (t.length - 1200) = ' ' :: List.replicate 799 'a' := by
    rw [hlen, ht, List.drop_append_eq_append_drop]
    rw [List.drop_replicate, List.length_replicate]
    rw [show (1200 : Nat) - 1200 = 0 by norm_num]
    rw [show List.replicate (1200 - 1200) 'a' = [] by norm_num]
    rw [List.drop_zero, List.nil_append]
    rw [show (2000 : Nat) - 1200 = 799 + 1 by norm_num]
    rw [List.take_succ_cons, List.take_replicate]
    rw [show min 799 799 = 799 by norm_num]
  have htrim2 : trimChars (' ' :: List.replicate 799 'a') = List.replicate 799 'a' := by
    unfold trimChars
    rw [List.dropWhile_cons]
    rw [if_pos (by decide : isWs ' ' = true)]
    rw [dropWhile_isWs_eq_self (List.replicate 799 'a') (fun c hc => by
      rw [List.head?_replicate] at hc
      norm_num at hc
      rw [← hc]; decide)]
    rw [List.reverse_replicate]
    rw [dropWhile_isWs_eq_self (List.replicate 799 'a') (fun c hc => by
      rw [List.head?_replicate] at hc
      norm_num at hc
      rw [← hc]; decide)]
    exact List.reverse_replicate _ _
  rw [hlen]
  rw [chunkLoopF_step_mid 2000 t 0 (by rw [hlen]; norm_num [chunkSize])
    (by rw [hd0, htrim1, hc1len]; norm_num)]
  rw [hd0, htrim1]
  rw [show (0 : Nat) + chunkSize - overlap = 1200 from rfl]
  rw [show (2000 : Nat) = 1999 + 1 by norm_num]
  rw [chunkLoopF_step_last 1999 t 1200 (by rw [hlen]; norm_num)
    (by rw [hlen]; norm_num [chunkSize])
    (by rw [hd1, htrim2, List.length_replicate]; norm_num)]
  rw [hd1, htrim2]

/-! ## Claim C4 -/

/-- C4, counterexample.  The claim says a candidate window is discarded iff
it is shorter than 50 characters, and that an exactly-50-character candidate
is emitted.  On a normalized 50-character page the single candidate window
is exactly the 50-character text, yet the chunker emits nothing, because the
code keeps a chunk only when `chunk.length > 50`. -/
theorem c4_discard_counterexample :
    chunkPage (List.replicate 50 'a') = [] ∧
    candidatesF ((List.replicate 50 'a').length + 1) (List.replicate 50 'a') 0 =
      [List.replicate 50 'a'] ∧
    (List.replicate 50 'a').length = 50 :=
  ⟨by decide, by decide, by decide⟩

/-- C4, amended.  A candidate window is kept iff its trimmed text is strictly
longer than 50 characters (so one of exactly 50 characters is discarded):
the chunk list is the candidate list filtered by `50 < length`, every
emitted chunk is strictly longer than 50 characters, a 50-character page
yields no chunk and a 51-character page yields one. -/
theorem c4_discard_rule :
    (∀ (fuel : Nat) (txt : List Char) (s : Nat),
      chunkLoopF fuel txt s = (candidatesF fuel txt s).filter (fun c => 50 < c.length)) ∧
    (∀ (fuel : Nat) (txt : List Char) (s : Nat) (c : List Char),
      c ∈ chunkLoopF fuel txt s → 50 < c.length) ∧
    chunkPage (List.replicate 50 'a') = [] ∧
    chunkPage (List.replicate 51 'a') = [List.replicate 51 'a'] :=
  ⟨chunkLoopF_eq_filter, mem_chunkLoopF_gt_50, by decide, by decide⟩

/-- C4, witness: the amended rule applied to the 51-character page. -/
theorem c4_discard_rule_witness :
    50 < (List.replicate 51 'a').length :=
  c4_discard_rule.2.1 52 (List.replicate 51 'a') 0 (List.replicate 51 'a') (by decide)

/-! ## Claim C5 -/

/-- C5, counterexample.  The claim says consecutive emitted chunks overlap
by exactly 300 characters and that a 2000-character normalized page yields
the chunks `[0,1500)` and `[1200,2000)`.  For the 2000-character page with a
space at position 1200, the second window is trimmed: the last 300
characters of the first chunk differ from the first 300 characters of the
second chunk, and the second chunk is shorter than the `[1200,2000)` slice. -/
theorem c5_overlap_counterexample :
    chunkPage (List.replicate 1200 'a' ++ ' ' :: List.replicate 799 'a') =
      [List.replicate 1200 'a' ++ ' ' :: List.replicate 299 'a', List.replicate 799 'a'] ∧
    (List.replicate 1200 'a' ++ ' ' :: List.replicate 299 'a').drop 1200 ≠
      (List.replicate 799 'a').take 300 ∧
    (List.replicate 799 'a').length ≠
      ((List.replicate 1200 'a' ++ ' ' :: List.replicate 799 'a').drop 1200).length := by
  refine ⟨chunkPage_c5txt, ?_, ?_⟩
  · have h1 : (List.replicate 1200 'a' ++ ' ' :: List.replicate 299 'a').drop 1200 =
        ' ' :: List.replicate 299 'a' := by
      rw [List.drop_append_eq_append_drop, List.drop_replicate, List.length_replicate]
      rw [show (1200 : Nat) - 1200 = 0 by norm_num]
      rw [List.replicate_zero, List.drop_zero, List.nil_append]
    have h2 : (List.replicate 799 'a').take 300 = List.replicate 300 'a' := by
      rw [List.take_replicate]
      norm_num
    rw [h1, h2, show (300 : Nat) = 299 + 1 by norm_num, List.replicate_succ]
    intro h
    injection h with hh _
    exact absurd hh (by decide)
  · have h1 : (List.replicate 1200 'a' ++ ' ' :: List.replicate 799 'a').drop 1200 =
        ' ' :: List.replicate 799 'a' := by
      rw [List.drop_append_eq_append_drop, List.drop_replicate, List.length_replicate]
      rw [show (1200 : Nat) - 1200 = 0 by norm_num]
      rw [List.replicate_zero, List.drop_zero, List.nil_append]
    rw [h1, List.length_replicate, List.length_cons, List.length_replicate]
    norm_num

set_option maxRecDepth 20000 in
/-- C5, amended.  Every emitted chunk has length at most 1500.  Consecutive
candidate windows of a page overlap in exactly 300 positions: every
non-final window spans `[s, s+1500)` and the next starts at `s+1200`.  The
emitted chunks are the trimmed window texts (so boundary whitespace can make
the shared text shorter, as the counterexample shows).  The all-letter
2000-character page yields exactly the chunks `[0,1500)` and `[1200,2000)`,
and a 120-character page yields exactly one chunk. -/
theorem c5_chunk_bounds :
    (∀ (fuel : Nat) (txt : List Char) (s : Nat) (c : List Char),
      c ∈ chunkLoopF fuel txt s → c.length ≤ chunkSize) ∧
    (∀ (raw : List Char) (c : List Char), c ∈ chunkPage raw → c.length ≤ 1500) ∧
    (∀ (fuel len s : Nat),
      List.Chain' (fun a b => a.2 = a.1 + chunkSize ∧ b.1 + overlap = a.2)
        (windowsF fuel len s)) ∧
    chunkPage (List.replicate 2000 'a') =
      [(List.replicate 2000 'a').take 1500, (List.replicate 2000 'a').drop 1200] ∧
    chunkPage (List.replicate 120 'a') = [List.replicate 120 'a'] :=
  ⟨mem_chunkLoopF_le_chunkSize,
   fun raw c hc => mem_chunkLoopF_le_chunkSize _ _ _ c hc,
   windowsF_chain, chunkPage_rep2000, by decide⟩

set_option maxRecDepth 20000 in
/-- C5, witness: the length bound applied to the 120-character page chunk. -/
theorem c5_chunk_bounds_witness :
    (List.replicate 120 'a').length ≤ chunkSize :=
  c5_chunk_bounds.1 121 (List.replicate 120 'a') 0 (List.replicate 120 'a') (by decide)

/-!  ## Lemmas about the local retriever -/

/-- The order in which `demoLocalAnswer` ranks (index, score) pairs:
strictly larger score first, ties broken by the original (smaller) index. -/
def strictRank (a b : Nat × Nat) : Prop :=
  b.2 < a.2 ∨ (a.2 = b.2 ∧ a.1 < b.1)

/-- The scoring rule as the spec words it: the count of DISTINCT query
tokens contained in the lower-cased chunk text.  Stated only to compare with
`chunkScore`, which the code computes. -/
def specDistinctScore (qws : List (List Char)) (text : List Char) : Nat :=
  (qws.dedup).countP (fun w => containsSub (text.map Char.toLower) w)

theorem chunkScore_aux (qws : List (List Char)) (t : List Char) (n : Nat) :
    qws.foldl (fun s w => s + (if containsSub (t.map Char.toLower) w then 1 else 0)) n =
      n + qws.countP (fun w => containsSub (t.map Char.toLower) w) := by
  induction qws generalizing n with
  | nil => simp
  | cons w ws ih =>
    rw [List.foldl_cons, ih, List.countP_cons]
    by_cases h : containsSub (t.map Char.toLower) w
    · simp [h]; omega
    · simp [h]

theorem chunkScore_eq_countP (qws : List (List Char)) (t : List Char) :
    chunkScore qws t = qws.countP (fun w => containsSub (t.map Char.toLower) w) := by
  unfold chunkScore
  rw [chunkScore_aux]
  omega

theorem mem_scoreList (qws : List (List Char)) (k : Nat) (cs : List Chunk)
    (p : Nat × Nat) (hp : p ∈ scoreList qws k cs) :
    k ≤ p.1 ∧ p.1 < k + cs.length ∧
      p.2 = chunkScore qws ((cs.getD (p.1 - k) default).text) := by
  induction cs generalizing k with
  | nil => simp [scoreList] at hp
  | cons c cs ih =>
    rw [scoreList] at hp
    rcases List.mem_cons.mp hp with h | h
    · subst h
      refine ⟨Nat.le_refl k, by simp [List.length_cons], ?_⟩
      simp
    · rcases ih (k + 1) h with ⟨h1, h2, h3⟩
      refine ⟨by omega, by simp [List.length_cons]; omega, ?_⟩
      rw [show p.1 - k = (p.1 - (k + 1)) + 1 by omega, List.getD_cons_succ]
      exact h3

theorem scoreList_pairwise_fst (qws : List (List Char)) (k : Nat) (cs : List Chunk) :
    List.Pairwise (fun a b => a.1 < b.1) (scoreList qws k cs) := by
  induction cs generalizing k with
  | nil => simp [scoreList]
  | cons c cs ih =>
    rw [scoreList, List.pairwise_cons]
    refine ⟨fun y hy => ?_, ih (k + 1)⟩
    have h1 := (mem_scoreList qws (k + 1) cs y hy).1
    show k < y.1
    omega

theorem orderedInsert_pairwise_strict (x : Nat × Nat) (l : List (Nat × Nat))
    (hl : List.Pairwise strictRank l) (hx : ∀ y ∈ l, x.1 < y.1) :
    List.Pairwise strictRank (List.orderedInsert rankR x l) := by
  induction l with
  | nil => simp [List.orderedInsert, List.pairwise_cons]
  | cons y ys ih =>
    rw [List.orderedInsert]
    by_cases h : rankR x y
    · rw [if_pos h]
      rw [List.pairwise_cons]
      refine ⟨fun z hz => ?_, hl⟩
      rcases List.mem_cons.mp hz with rfl | hz'
      · rcases Nat.lt_or_ge z.2 x.2 with hlt | hge
        · exact Or.inl hlt
        · have : x.2 = z.2 := Nat.le_antisymm hge h
          exact Or.inr ⟨this, hx z (List.mem_cons_self _ _)⟩
      · have hyz := (List.pairwise_cons.mp hl).1 z hz'
        have hzy : z.2 ≤ y.2 := by
          rcases hyz with h1 | ⟨h1, _⟩
          · omega
          · omega
        rcases Nat.lt_or_ge z.2 x.2 with hlt | hge
        · exact Or.inl hlt
        · have h2 : z.2 ≤ x.2 := Nat.le_trans hzy h
          have : x.2 = z.2 := Nat.le_antisymm hge h2
          exact Or.inr ⟨this, hx z (List.mem_cons_of_mem _ hz')⟩
    · rw [if_neg h]
      rw [List.pairwise_cons]
      refine ⟨fun z hz => ?_, ih (List.pairwise_cons.mp hl).2
        (fun w hw => hx w (List.mem_cons_of_mem _ hw))⟩
      rcases (List.mem_orderedInsert rankR).mp hz with rfl | hz'
      · refine Or.inl ?_
        unfold rankR at h
        omega
      · exact (List.pairwise_cons.mp hl).1 z hz'

theorem insertionSort_pairwise_strict (l : List (Nat × Nat))
    (hl : List.Pairwise (fun a b => a.1 < b.1) l) :
    List.Pairwise strictRank (List.insertionSort rankR l) := by
  induction l with
  | nil => simp [List.insertionSort]
  | cons x xs ih =>
    rw [List.insertionSort]
    have hmem : ∀ y ∈ List.insertionSort rankR xs, x.1 < y.1 := fun y hy =>
      (List.pairwise_cons.mp hl).1 y ((List.perm_insertionSort rankR xs).mem_iff.mp hy)
    exact orderedInsert_pairwise_strict x _ (ih (List.pairwise_cons.mp hl).2) hmem

theorem demoRetrieveScored_sublist (chunks : List Chunk) (q : List Char) :
    (demoRetrieveScored chunks q).Sublist
      (List.insertionSort rankR (scoreList (qTokens q) 0 chunks)) :=
  (List.filter_sublist _).trans (List.take_sublist _ _)

theorem mem_demoRetrieveScored (chunks : List Chunk) (q : List Char) (p : Nat × Nat)
    (hp : p ∈ demoRetrieveScored chunks q) :
    0 < p.2 ∧ p.1 < chunks.length ∧
      p.2 = chunkScore (qTokens q) ((chunks.getD p.1 default).text) := by
  have h0 : 0 < p.2 := by
    have := (List.mem_filter.mp hp).2
    exact of_decide_eq_true this
  have hmem : p ∈ scoreList (qTokens q) 0 chunks :=
    (List.perm_insertionSort rankR _).mem_iff.mp
      ((List.take_sublist _ _).mem (List.mem_filter.mp hp).1)
  rcases mem_scoreList _ 0 _ p hmem with ⟨_, h2, h3⟩
  refine ⟨h0, by omega, ?_⟩
  simpa using h3

theorem demoRetrieveScored_pairwise (chunks : List Chunk) (q : List Char) :
    List.Pairwise strictRank (demoRetrieveScored chunks q) :=
  List.Pairwise.sublist (demoRetrieveScored_sublist chunks q)
    (insertionSort_pairwise_strict _ (scoreList_pairwise_fst _ 0 _))

theorem demoRetrieve_length_le (chunks : List Chunk) (q : List Char) :
    (demoRetrieve chunks q).length ≤ 3 := by
  unfold demoRetrieve demoRetrieveScored
  rw [List.length_map]
  calc (((List.insertionSort rankR (scoreList (qTokens q) 0 chunks)).take 3).filter
          (fun x => 0 < x.2)).length
      ≤ ((List.insertionSort rankR (scoreList (qTokens q) 0 chunks)).take 3).length :=
        (List.filter_sublist _).length_le
    _ ≤ 3 := by rw [List.length_take]; omega

theorem demoRetrieve_empty (chunks : List Chunk) (q : List Char)
    (h : ∀ c ∈ chunks, chunkScore (qTokens q) c.text = 0) :
    demoRetrieve chunks q = [] := by
  unfold demoRetrieve
  have : demoRetrieveScored chunks q = [] := by
    unfold demoRetrieveScored
    rw [List.filter_eq_nil_iff]
    intro p hp
    have hmem : p ∈ scoreList (qTokens q) 0 chunks :=
      (List.perm_insertionSort rankR _).mem_iff.mp ((List.take_sublist _ _).mem hp)
    rcases mem_scoreList _ 0 _ p hmem with ⟨_, h2, h3⟩
    have hc : chunks.getD (p.1 - 0) default ∈ chunks := by
      rw [List.getD_eq_getElem _ _ (by omega)]
      exact List.getElem_mem _
    rw [h (chunks.getD (p.1 - 0) default) hc] at h3
    simp [h3]
  rw [this]
  rfl

/-! ## Claim C3 -/

/-- C3, counterexample.  The claim says each chunk's score equals the count
of distinct query tokens contained in the chunk.  The code does not
deduplicate tokens: for the query "dog dog" on the chunk "cat dog" the code
scores 2, while the distinct-token count is 1. -/
theorem c3_distinct_counterexample :
    chunkScore (qTokens "dog dog".data) "cat dog".data = 2 ∧
    specDistinctScore (qTokens "dog dog".data) "cat dog".data = 1 :=
  ⟨by decide, by decide⟩

/-- C3, amended.  The query is lower-cased, split on non-word characters and
empty tokens dropped; each chunk's score is the count of query-token
OCCURRENCES (multiplicity included, not distinct tokens) contained as a
substring of the lower-cased chunk text; the result has at most 3 entries,
each with positive score equal to the score of the chunk it indexes, ranked
by descending score with ties broken by original chunk order, and is empty
when no chunk scores above zero; the chunks ["cat dog", "fish bird",
"dog fish"] with query "dog fish" score [1, 1, 2] and rank [2, 0, 1]. -/
theorem c3_retrieval :
    (∀ (qws : List (List Char)) (t : List Char),
      chunkScore qws t = qws.countP (fun w => containsSub (t.map Char.toLower) w)) ∧
    (∀ (chunks : List Chunk) (q : List Char), (demoRetrieve chunks q).length ≤ 3) ∧
    (∀ (chunks : List Chunk) (q : List Char) (p : Nat × Nat),
      p ∈ demoRetrieveScored chunks q →
        0 < p.2 ∧ p.1 < chunks.length ∧
          p.2 = chunkScore (qTokens q) ((chunks.getD p.1 default).text)) ∧
    (∀ (chunks : List Chunk) (q : List Char),
      List.Pairwise strictRank (demoRetrieveScored chunks q)) ∧
    (∀ (chunks : List Chunk) (q : List Char),
      (∀ c ∈ chunks, chunkScore (qTokens q) c.text = 0) → demoRetrieve chunks q = []) ∧
    demoRetrieve [⟨1, "cat dog".data⟩, ⟨2, "fish bird".data⟩, ⟨3, "dog fish".data⟩]
      "dog fish".data = [2, 0, 1] ∧
    scoreList (qTokens "dog fish".data) 0
      [⟨1, "cat dog".data⟩, ⟨2, "fish bird".data⟩, ⟨3, "dog fish".data⟩] =
      [(0, 1), (1, 1), (2, 2)] :=
  ⟨chunkScore_eq_countP, demoRetrieve_length_le, mem_demoRetrieveScored,
   demoRetrieveScored_pairwise, demoRetrieve_empty, by decide, by decide⟩

/-- C3, witness: the empty-result clause applied to a one-chunk collection
with a non-matching query. -/
theorem c3_retrieval_witness :
    demoRetrieve [⟨1, "cat".data⟩] "zzz".data = [] :=
  c3_retrieval.2.2.2.2.1 [⟨1, "cat".data⟩] "zzz".data (by decide)

/-! ## Lemmas about placeholder substitution -/

/-- Unfolding equation of `containsSub` on a nonempty text. -/
theorem containsSub_cons (c : Char) (cs sep : List Char) :
    containsSub (c :: cs) sep = (sep.isPrefixOf (c :: cs) || containsSub cs sep) := rfl

/-- Fuel irrelevance: any fuel at least the text length gives the same
result, so `replaceAll` is well defined. -/
theorem replaceAllF_fuel (sep repl : List Char) (fuel : Nat) :
    ∀ (fuel' : Nat) (text : List Char), text.length ≤ fuel → text.length ≤ fuel' →
      replaceAllF sep repl fuel text = replaceAllF sep repl fuel' text := by
  induction fuel with
  | zero =>
    intro fuel' text h h'
    have : text = [] := List.length_eq_zero.mp (Nat.le_zero.mp h)
    subst this
    cases fuel' <;> rfl
  | succ fuel ih =>
    intro fuel' text h h'
    cases text with
    | nil => cases fuel' <;> rfl
    | cons c cs =>
      cases fuel' with
      | zero => simp [List.length_cons] at h'
      | succ fuel' =>
        rw [replaceAllF, replaceAllF]
        by_cases hb : (sep.isPrefixOf (c :: cs) && !sep.isEmpty) = true
        · rw [if_pos hb, if_pos hb]
          have hlen : 1 ≤ sep.length := by
            cases sep with
            | nil => simp at hb
            | cons s ss => rw [List.length_cons]; omega
          have hdl : ((c :: cs).drop sep.length).length ≤ fuel := by
            rw [List.length_drop]
            simp only [List.length_cons] at h ⊢
            omega
          have hdl' : ((c :: cs).drop sep.length).length ≤ fuel' := by
            rw [List.length_drop]
            simp only [List.length_cons] at h' ⊢
            omega
          rw [ih fuel' _ hdl hdl']
        · rw [if_neg hb, if_neg hb]
          have hcs : cs.length ≤ fuel := by
            simp only [List.length_cons] at h
            omega
          have hcs' : cs.length ≤ fuel' := by
            simp only [List.length_cons] at h'
            omega
          rw [ih fuel' cs hcs hcs']

/-- A text without any occurrence of the separator is left unchanged. -/
theorem replaceAllF_of_not_contains (sep repl : List Char) (fuel : Nat) :
    ∀ (text : List Char), containsSub text sep = false →
      replaceAllF sep repl fuel text = text := by
  induction fuel with
  | zero => intro text _; rfl
  | succ fuel ih =>
    intro text h
    cases text with
    | nil => rfl
    | cons c cs =>
      rw [containsSub_cons] at h
      rcases Bool.or_eq_false_iff.mp h with ⟨h1, h2⟩
      rw [replaceAllF]
      rw [if_neg (by simp [h1])]
      rw [ih cs h2]

/-- `md.split(sep).join(repl)` leaves a text without occurrences of `sep`
unchanged. -/
theorem replaceAll_of_not_contains (sep repl text : List Char)
    (h : containsSub text sep = false) : replaceAll sep repl text = text :=
  replaceAllF_of_not_contains sep repl text.length text h

/-- A prefix occurrence is an occurrence. -/
theorem containsSub_of_isPrefixOf (sep l : List Char)
    (hne : l ≠ []) (h : sep.isPrefixOf l = true) : containsSub l sep = true := by
  cases l with
  | nil => exact absurd rfl hne
  | cons c cs =>
    rw [containsSub_cons, h]
    rfl

/-- A prefix match of `sep` at the head of `a ++ sep ++ b` with `a`
nonempty lies inside `a ++ sep.dropLast`. -/
theorem isPrefixOf_shift (sep a b : List Char) (hsep : sep ≠ []) (hane : a ≠ [])
    (h : sep.isPrefixOf (a ++ sep ++ b) = true) :
    sep.isPrefixOf (a ++ sep.dropLast) = true := by
  rw [List.isPrefixOf_iff_prefix] at h ⊢
  have hsplit : a ++ sep ++ b = (a ++ sep.dropLast) ++ (sep.getLast hsep :: b) := by
    conv_lhs => rw [← List.dropLast_append_getLast hsep]
    simp [List.append_assoc]
  have hpre : (a ++ sep.dropLast) <+: (a ++ sep ++ b) := by
    rw [hsplit]
    exact List.prefix_append _ _
  refine List.prefix_of_prefix_length_le h hpre ?_
  rw [List.length_append, List.length_dropLast]
  have ha1 : 1 ≤ a.length := by
    cases a with
    | nil => exact absurd rfl hane
    | cons x xs => simp [List.length_cons]
  have hs1 : 1 ≤ sep.length := by
    cases sep with
    | nil => exact absurd rfl hsep
    | cons s ss => simp [List.length_cons]
  omega

/-- The characterizing recurrence of `split/join`: when the occurrence of
`sep` after `a` is the first one, everything before it is copied, `repl` is
substituted, and the scan continues after the occurrence (so every later
occurrence is substituted too). -/
theorem replaceAllF_append_first (sep repl : List Char) (hsep : sep ≠ []) :
    ∀ (a : List Char) (b : List Char) (fuel : Nat), (a ++ sep ++ b).length ≤ fuel →
      containsSub (a ++ sep.dropLast) sep = false →
      replaceAllF sep repl fuel (a ++ sep ++ b) =
        a ++ repl ++ replaceAllF sep repl b.length b := by
  intro a
  induction a with
  | nil =>
    intro b fuel hfuel _
    cases sep with
    | nil => exact absurd rfl hsep
    | cons s ss =>
      simp only [List.nil_append] at hfuel ⊢
      cases fuel with
      | zero => simp [List.length_cons, List.length_append] at hfuel
      | succ fuel =>
        rw [show (s :: ss) ++ b = s :: (ss ++ b) from rfl]
        rw [replaceAllF]
        have hpre : (s :: ss).isPrefixOf (s :: (ss ++ b)) = true := by
          rw [List.isPrefixOf_iff_prefix]
          rw [show s :: (ss ++ b) = (s :: ss) ++ b from rfl]
          exact List.prefix_append _ _
        rw [if_pos (by simp [hpre])]
        rw [show s :: (ss ++ b) = (s :: ss) ++ b from rfl]
        rw [show ((s :: ss) ++ b).drop (s :: ss).length = b from List.drop_left _ _]
        congr 1
        refine replaceAllF_fuel _ _ _ _ _ ?_ (Nat.le_refl _)
        rw [List.length_append, List.length_cons] at hfuel
        omega
  | cons x a' ih =>
    intro b fuel hfuel hcon
    cases fuel with
    | zero => simp [List.length_cons, List.length_append] at hfuel
    | succ fuel =>
      rw [show (x :: a') ++ sep ++ b = x :: (a' ++ sep ++ b) from rfl]
      rw [replaceAllF]
      have hnp : sep.isPrefixOf (x :: (a' ++ sep ++ b)) = false := by
        by_contra hx
        rw [Bool.not_eq_false] at hx
        have h1 := isPrefixOf_shift sep (x :: a') b hsep (by simp) hx
        have h2 := containsSub_of_isPrefixOf sep ((x :: a') ++ sep.dropLast) (by simp) h1
        rw [hcon] at h2
        exact Bool.false_ne_true h2
      rw [if_neg (show ¬ ((sep.isPrefixOf (x :: (a' ++ sep ++ b)) && !sep.isEmpty) = true) by
        rw [hnp]; simp)]
      have hcon' : containsSub (a' ++ sep.dropLast) sep = false := by
        rw [show (x :: a') ++ sep.dropLast = x :: (a' ++ sep.dropLast) from rfl] at hcon
        rw [containsSub_cons] at hcon
        exact (Bool.or_eq_false_iff.mp hcon).2
      rw [ih b fuel (by
        simp only [List.length_cons, List.length_append] at hfuel ⊢
        omega) hcon']
      rfl

/-- `replaceAllF_append_first` at the standard fuel. -/
theorem replaceAll_append_first (sep repl a b : List Char) (hsep : sep ≠ [])
    (ha : containsSub (a ++ sep.dropLast) sep = false) :
    replaceAll sep repl (a ++ sep ++ b) = a ++ repl ++ replaceAll sep repl b :=
  replaceAllF_append_first sep repl hsep a b _ (Nat.le_refl _) ha

/-! ## Claim C6 -/

/-- C6: placeholder substitution is positional and verbatim.  An expression
longer than 80 characters or containing a newline is wrapped in display
delimiters, any other in inline delimiters; one `forEach` step of `ask`
replaces every occurrence of the placeholder token by the wrapped expression
inserted verbatim (first-occurrence recurrence plus no-occurrence identity);
`"Value is <<MATH_0>>."` with `["x=1"]` yields `"Value is \\(x=1\\)."`, and a
90-character newline-free expression gets display wrapping. -/
theorem c6_placeholder_subst :
    (∀ (m : List Char), (80 < m.length ∨ m.contains '\n' = true) →
      wrapExpr m = "\\[".data ++ m ++ "\\]".data) ∧
    (∀ (m : List Char), m.length ≤ 80 → m.contains '\n' = false →
      wrapExpr m = "\\(".data ++ m ++ "\\)".data) ∧
    (∀ (sep repl a b : List Char), sep ≠ [] →
      containsSub (a ++ sep.dropLast) sep = false →
      replaceAll sep repl (a ++ sep ++ b) = a ++ repl ++ replaceAll sep repl b) ∧
    (∀ (sep repl text : List Char), containsSub text sep = false →
      replaceAll sep repl text = text) ∧
    substMath "Value is <<MATH_0>>.".data ["x=1".data] = "Value is \\(x=1\\).".data ∧
    wrapExpr (List.replicate 90 'x') = "\\[".data ++ List.replicate 90 'x' ++ "\\]".data := by
  refine ⟨fun m h => ?_, fun m h1 h2 => ?_,
    fun sep repl a b h1 h2 => replaceAll_append_first sep repl a b h1 h2,
    fun sep repl text h => replaceAll_of_not_contains sep repl text h,
    by decide, by decide⟩
  · unfold wrapExpr
    rcases h with h | h
    · rw [if_pos (show (decide (80 < m.length) || m.contains '\n') = true by
        rw [decide_eq_true h]; rfl)]
    · rw [if_pos (show (decide (80 < m.length) || m.contains '\n') = true by
        rw [h]; simp)]
  · unfold wrapExpr
    have hc : (decide (80 < m.length) || m.contains '\n') = false := by
      rw [decide_eq_false (by omega : ¬ 80 < m.length), h2]
      rfl
    rw [if_neg (by rw [hc]; simp)]

/-- C6, witness: the first-occurrence recurrence applied to a concrete
markdown split around `<<MATH_1>>`. -/
theorem c6_placeholder_subst_witness :
    replaceAll "<<MATH_1>>".data "W".data
        ("ab".data ++ "<<MATH_1>>".data ++ "cd".data) =
      "ab".data ++ "W".data ++ replaceAll "<<MATH_1>>".data "W".data "cd".data :=
  c6_placeholder_subst.2.2.1 "<<MATH_1>>".data "W".data "ab".data "cd".data
    (by decide) (by decide)

/-! ## Claim C9 -/

/-- C9: substitution for index `i` rewrites the markdown produced by the
previous indices (sequential over the already-substituted string), every
occurrence of a placeholder is replaced (both `<<MATH_0>>` occurrences in
the example), and a `<<MATH_1>>` token inserted by the expression for index
0 is itself substituted by the later iteration. -/
theorem c9_subst_all_occurrences :
    (∀ (md : List Char) (i : Nat) (m : List Char) (ms : List (List Char)),
      substMathAux md i (m :: ms) =
        substMathAux (replaceAll (placeholderTok i) (wrapExpr m) md) (i + 1) ms) ∧
    substMath "A<<MATH_0>>B<<MATH_0>>C".data ["x".data] = "A\\(x\\)B\\(x\\)C".data ∧
    substMath "<<MATH_0>>".data ["a<<MATH_1>>b".data, "z".data] = "\\(a\\(z\\)b\\)".data :=
  ⟨fun _ _ _ _ => rfl, by decide, by decide⟩

/-! ## Claim C1 -/

/-- C1, counterexample.  The claim says that with less than 5 MB free,
`put` fails with `QuotaExceeded` and the underlying write is never invoked.
With an estimate of 1 byte free, `trySaveLocally` still reaches the
IndexedDB write and the write succeeds: the quota error is caught by the
surrounding try/catch, which only warns. -/
theorem c1_quota_counterexample :
    (trySaveLocally (some ⟨1, 0⟩) true "k".data
        ⟨"a".data, [], 0, []⟩ ([] : IdbStore)).writeAttempted = true ∧
    (trySaveLocally (some ⟨1, 0⟩) true "k".data
        ⟨"a".data, [], 0, []⟩ ([] : IdbStore)).result =
      Except.ok [("k".data, ⟨"a".data, [], 0, []⟩)] ∧
    (trySaveLocally (some ⟨1, 0⟩) true "k".data
        ⟨"a".data, [], 0, []⟩ ([] : IdbStore)).quotaWarned = true :=
  ⟨rfl, by decide, by decide⟩

/-- C1, amended.  The underlying write is reached on every call.  When the
estimate reports a nonzero quota with less than 5 MB free, the guard throws,
its catch logs the warning, and the write is still attempted (succeeding
when IndexedDB works); the save fails only when the underlying store write
itself fails. -/
theorem c1_quota_guard_amended :
    (∀ (est : Option StorageEstimate) (idbOk : Bool) (key : List Char)
        (payload : Collection) (st : IdbStore),
      (trySaveLocally est idbOk key payload st).writeAttempted = true) ∧
    (∀ (e : StorageEstimate) (key : List Char) (payload : Collection) (st : IdbStore),
      e.quota ≠ 0 → (e.quota : Int) - (e.usage : Int) < 5 * 1024 * 1024 →
      (trySaveLocally (some e) true key payload st).quotaWarned = true ∧
      (trySaveLocally (some e) true key payload st).result =
        Except.ok (idbPut st key payload)) ∧
    (∀ (est : Option StorageEstimate) (key : List Char) (payload : Collection)
        (st : IdbStore),
      (trySaveLocally est false key payload st).result =
        Except.error StoreErr.storeUnavailable) := by
  refine ⟨fun _ _ _ _ _ => rfl, fun e key payload st h1 h2 => ?_, fun _ _ _ _ => rfl⟩
  have hq : quotaCheck (some e) =
      Except.error "Insufficient local storage quota for this document".data := by
    show (if e.quota ≠ 0 then
        if (e.quota : Int) - (e.usage : Int) < 5 * 1024 * 1024 then
          Except.error "Insufficient local storage quota for this document".data
        else Except.ok ()
      else Except.ok ()) = _
    rw [if_pos h1, if_pos h2]
  constructor
  · show (trySaveLocally (some e) true key payload st).quotaWarned = true
    unfold trySaveLocally
    rw [hq]
  · show (trySaveLocally (some e) true key payload st).result = _
    unfold trySaveLocally
    rw [hq]
    rfl

/-- C1, witness: the amended guard behavior at a 1-byte-free estimate. -/
theorem c1_quota_guard_amended_witness :
    (trySaveLocally (some ⟨1, 0⟩) true "k".data ⟨"a".data, [], 0, []⟩
        ([] : IdbStore)).quotaWarned = true ∧
    (trySaveLocally (some ⟨1, 0⟩) true "k".data ⟨"a".data, [], 0, []⟩
        ([] : IdbStore)).result =
      Except.ok (idbPut ([] : IdbStore) "k".data ⟨"a".data, [], 0, []⟩) :=
  c1_quota_guard_amended.2.1 ⟨1, 0⟩ "k".data ⟨"a".data, [], 0, []⟩ []
    (by decide) (by decide)

/-! ## Claim C2 -/

/-- C2: `put` followed by `get` on the IndexedDB store round-trips, but
ingestion never touches `localStorage`, and on the concrete ingestion of
`a.pdf` the persisted Collection is readable from IndexedDB under
`documind:` + collectionName while `localStorage.getItem` of that very key
(what `demoLocalAnswer` reads) yields nothing. -/
theorem c2_roundtrip_vs_retriever :
    (∀ (st : IdbStore) (k : List Char) (v : Collection),
      storeGet (idbPut st k v) k = some v) ∧
    (∀ (file : List Char) (pages : List (Nat × List Char)) (est : Option StorageEstimate)
        (now : Nat) (pAt : List Char) (b : Browser),
      (handleFile (some file) pages est true now pAt b).browser.localStore = b.localStore) ∧
    storeGet (handleFile (some "a.pdf".data) [(1, List.replicate 60 'a')] none true 7 []
        ⟨[], []⟩).browser.idb
        ("documind:".data ++ collectionNameOf "a.pdf".data 7) =
      some ⟨"a.pdf".data, chunksOfPages [(1, List.replicate 60 'a')], 1, []⟩ ∧
    localStorageGetItem (handleFile (some "a.pdf".data) [(1, List.replicate 60 'a')] none
        true 7 [] ⟨[], []⟩).browser
        ("documind:".data ++ collectionNameOf "a.pdf".data 7) = none := by
  refine ⟨?_, ?_, ?_, ?_⟩
  · intro st k v
    unfold storeGet idbPut
    simp [List.find?]
  · intro file pages est now pAt b
    unfold handleFile
    by_cases h : pdfNameOk file = true
    · simp only [h, if_true]
      rfl
    · simp only [h, if_false]
      rfl
  · decide
  · decide

/-! ## Claim C7 -/

/-- C7: local persistence failure is non-fatal.  For every valid PDF
selection, whatever the storage estimate and IndexedDB availability, the
caller is notified of the new collection name and the remote index
submission is attempted; when the IndexedDB write fails the stores are
unchanged and the status reports the skipped local save. -/
theorem c7_save_failure_nonfatal :
    ∀ (file : List Char) (pages : List (Nat × List Char)) (est : Option StorageEstimate)
      (idbOk : Bool) (now : Nat) (pAt : List Char) (b : Browser),
      pdfNameOk file = true →
      ((handleFile (some file) pages est idbOk now pAt b).notified =
          some (collectionNameOf file now) ∧
        (handleFile (some file) pages est idbOk now pAt b).remoteIndexAttempted = true) ∧
      (idbOk = false →
        (handleFile (some file) pages est idbOk now pAt b).browser = b ∧
        (handleFile (some file) pages est idbOk now pAt b).status =
          indexedMsg (chunksOfPages pages).length pages.length
            "(local save skipped).".data) := by
  intro file pages est idbOk now pAt b h
  cases idbOk with
  | true =>
    refine ⟨?_, fun hf => by cases hf⟩
    unfold handleFile
    simp only [h, if_true]
    exact ⟨rfl, rfl⟩
  | false =>
    refine ⟨?_, fun _ => ?_⟩
    · unfold handleFile
      simp only [h, if_true]
      exact ⟨rfl, rfl⟩
    · unfold handleFile
      simp only [h, if_true]
      exact ⟨rfl, rfl⟩

/-- C7, witness: a concrete run with a failing IndexedDB write still
notifies and posts. -/
theorem c7_save_failure_nonfatal_witness :
    (handleFile (some "a.pdf".data) [] none false 0 [] ⟨[], []⟩).notified =
        some (collectionNameOf "a.pdf".data 0) ∧
      (handleFile (some "a.pdf".data) [] none false 0 [] ⟨[], []⟩).remoteIndexAttempted =
        true :=
  (c7_save_failure_nonfatal "a.pdf".data [] none false 0 [] ⟨[], []⟩ (by decide)).1

/-! ## Claim C10 -/

/-- C10: the ingestion entry point proceeds only when a file is present and
its name ends with `.pdf` case-insensitively; otherwise it only sets the
status message and returns - the browser stores are untouched, no parser
loading is requested, no notification and no network call happen. -/
theorem c10_pdf_gate :
    (∀ (pages : List (Nat × List Char)) (est : Option StorageEstimate) (idbOk : Bool)
        (now : Nat) (pAt : List Char) (b : Browser),
      handleFile none pages est idbOk now pAt b =
        { browser := b, status := "Please select a PDF file".data, notified := none,
          parserRequested := false, remoteIndexAttempted := false }) ∧
    (∀ (name : List Char) (pages : List (Nat × List Char)) (est : Option StorageEstimate)
        (idbOk : Bool) (now : Nat) (pAt : List Char) (b : Browser),
      pdfNameOk name = false →
      handleFile (some name) pages est idbOk now pAt b =
        { browser := b, status := "Please select a PDF file".data, notified := none,
          parserRequested := false, remoteIndexAttempted := false }) ∧
    (∀ (name : List Char) (pages : List (Nat × List Char)) (est : Option StorageEstimate)
        (idbOk : Bool) (now : Nat) (pAt : List Char) (b : Browser),
      pdfNameOk name = true →
      (handleFile (some name) pages est idbOk now pAt b).parserRequested = true) ∧
    pdfNameOk "Doc.PDF".data = true ∧
    pdfNameOk "doc.txt".data = false ∧
    pdfNameOk "".data = false := by
  refine ⟨fun _ _ _ _ _ _ => rfl, ?_, ?_, by decide, by decide, by decide⟩
  · intro name pages est idbOk now pAt b h
    unfold handleFile
    simp only [h]
    rfl
  · intro name pages est idbOk now pAt b h
    unfold handleFile
    simp only [h]
    rfl

/-- C10, witness: a `.txt` selection is rejected without side effects. -/
theorem c10_pdf_gate_witness :
    handleFile (some "doc.txt".data) [] none true 0 [] ⟨[], []⟩ =
      { browser := ⟨[], []⟩, status := "Please select a PDF file".data, notified := none,
        parserRequested := false, remoteIndexAttempted := false } :=
  c10_pdf_gate.2.1 "doc.txt".data [] none true 0 [] ⟨[], []⟩ (by decide)

/-! ## Claim C8 -/

/-- C8, counterexample.  The claim says an inline pattern never matches
inside an already-rewritten display-math block, and an inline code span
never matches inside a fenced block's body.  Both consequences fail.  On
`$$a $x$ b$$` the display pass produces a display container whose content
still holds `a $x$ b`, and the later single-dollar pass then rewrites `$x$`
into an inline-math span inside that display block.  Likewise, the fenced
pass keeps the backticks of the body, so the later inline-code pass rewrites
the backtick span of the fenced body into an inline-code element inside the
rewritten code block. -/
theorem c8_inline_in_display_counterexample :
    processMathExpressions "$$a $x$ b$$".data =
      "<div class=\"math-display\">\\[a <span class=\"math-inline\">\\(x\\)</span> b\\]</div>".data ∧
    containsSub (processMathExpressions "$$a $x$ b$$".data) "math-inline".data = true ∧
    processCodeBlocks "```\n`x`\n```".data =
      "<pre class=\"code-block\"><code class=\"language-plaintext\"><code class=\"inline-code\">x</code></code></pre>".data ∧
    containsSub (processCodeBlocks "```\n`x`\n```".data) "inline-code".data = true :=
  ⟨by decide, by decide, by decide, by decide⟩

/-- C8, amended.  The rewrite order itself holds: display patterns
(`\\[...\\]`, `$$...$$`) are rewritten before inline patterns (`\\(...\\)`,
single `$`), and fenced code blocks (with HTML-escaped bodies) before
inline code spans; a pure display block yields only a display container and
a fenced block with a backtick-free body only a code block, and swapping the
fenced/inline-code order changes the result (the inline pass would consume
the fence backticks).  However, because rewritten blocks keep their
delimiter text, an inline `$`-pattern can still match inside a rewritten
display block's content, and an inline code span can still match inside a
fenced block's rewritten body. -/
theorem c8_rewrite_order :
    (∀ (t : List Char), processMathExpressions t =
      dollarPass (parenPass (dollar2Pass (bracketPass t)))) ∧
    (∀ (t : List Char), processCodeBlocks t = inlineCodePass (fencedPass t)) ∧
    (∀ (t : List Char), askRewrite t = processCodeBlocks (processMathExpressions t)) ∧
    processMathExpressions "$$x+y$$".data =
      "<div class=\"math-display\">\\[x+y\\]</div>".data ∧
    containsSub (processMathExpressions "$$x+y$$".data) "math-inline".data = false ∧
    processCodeBlocks ("```".data ++ "\na < b\n".data ++ "```".data) =
      "<pre class=\"code-block\"><code class=\"language-plaintext\">a &lt; b</code></pre>".data ∧
    containsSub (processCodeBlocks ("```".data ++ "\na < b\n".data ++ "```".data))
      "inline-code".data = false ∧
    inlineCodePass (fencedPass ("```".data ++ "\nab\n".data ++ "```".data)) ≠
      fencedPass (inlineCodePass ("```".data ++ "\nab\n".data ++ "```".data)) ∧
    containsSub (processMathExpressions "$$a $x$ b$$".data) "math-inline".data = true ∧
    processCodeBlocks "```\n`x`\n```".data =
      "<pre class=\"code-block\"><code class=\"language-plaintext\"><code class=\"inline-code\">x</code></code></pre>".data ∧
    containsSub (processCodeBlocks "```\n`x`\n```".data) "inline-code".data = true :=
  ⟨fun _ => rfl, fun _ => rfl, fun _ => rfl, by decide, by decide, by decide, by decide,
    by decide, by decide, by decide, by decide⟩

end Documind
